import Mathlib

/-!
Verification development for the open-finops-pipelines repository.

The Lean definitions below are shallow embeddings of the Python source:

* `src/finops/services/schema_manager.py` — column-name normalization,
  duplicate-name resolution, per-manifest column processing and the unified
  schema builder;
* `src/finops/services/manifest_discovery.py` / `state_checker.py` — the
  already-loaded filter applied to discovered manifests;
* `src/finops/services/duckdb_loader.py` — the partition-replace load engine
  (delete all rows of the manifest's billing period, then bulk-insert the
  manifest's staged files, tagging rows with the execution id);
* `src/finops/services/parquet_exporter.py` — per-period Parquet export;
* `src/finops/services/bigquery_loader.py` — the remote delete-then-append
  sync.

Python strings are modelled as `String` / `List Char`; the character classes
of the regexes used by the source (`[a-z0-9]`, `[A-Z]`, `[^a-z0-9]`) are
ASCII classes and are modelled as such, and `str.lower` is modelled as ASCII
lowercasing (the two agree on every character that can survive the ASCII
`[^a-z0-9]` replacement).  Python dicts used as maps are modelled as
association lists with first-match lookup.  Database tables are modelled as
lists of rows; SQL `DELETE ... WHERE` is `List.filter` with the negated
predicate and `INSERT` is list append, matching the single-statement
atomicity of the engines used by the source.
-/

/-! ## Character classes (schema_manager.py, regexes in normalize_column_name) -/

/-- ASCII class `[a-z]` of the source's regexes. -/
def isLowerAZ (c : Char) : Bool := 97 ≤ c.toNat && c.toNat ≤ 122

/-- ASCII class `[A-Z]` of the source's regexes. -/
def isUpperAZ (c : Char) : Bool := 65 ≤ c.toNat && c.toNat ≤ 90

/-- ASCII class `[0-9]` of the source's regexes. -/
def isDigit09 (c : Char) : Bool := 48 ≤ c.toNat && c.toNat ≤ 57

/-- ASCII lowercasing of one character, modelling `str.lower()` on the
characters that matter for the `[^a-z0-9]` replacement that follows it. -/
def lowerChar (c : Char) : Char :=
  if isUpperAZ c then Char.ofNat (c.toNat + 32) else c

/-! ## normalize_column_name (schema_manager.py lines 35-95) -/

/-- Step 1 of `normalize_column_name`:
`re.sub('([a-z0-9])([A-Z])', r'\1_\2', name)` — insert an underscore
between a lowercase-or-digit character and an uppercase character.  Like
`re.sub`, after a (two-character) match the scan resumes after the match. -/
def camelSplit : List Char → List Char
  | [] => []
  | [c] => [c]
  | c1 :: c2 :: rest =>
    if (isLowerAZ c1 || isDigit09 c1) && isUpperAZ c2 then
      c1 :: '_' :: c2 :: camelSplit rest
    else
      c1 :: camelSplit (c2 :: rest)

/-- Step 3 of `normalize_column_name`: `re.sub(r'[^a-z0-9]', '_', name)`. -/
def mapNonAlnum (c : Char) : Char :=
  if isLowerAZ c || isDigit09 c then c else '_'

/-- Step 4 of `normalize_column_name`: `re.sub(r'_+', '_', name)` — collapse
every run of underscores to a single underscore (drop an underscore that is
followed by another underscore). -/
def collapseUnd : List Char → List Char
  | [] => []
  | [c] => [c]
  | c1 :: c2 :: rest =>
    if c1 == '_' && c2 == '_' then collapseUnd (c2 :: rest)
    else c1 :: collapseUnd (c2 :: rest)

/-- Step 5 of `normalize_column_name`: `name.strip('_')`. -/
def trimUnd (l : List Char) : List Char :=
  ((l.dropWhile (fun c => c == '_')).reverse.dropWhile (fun c => c == '_')).reverse

/-- The reserved-word list of `SchemaManager.is_reserved_word`
(schema_manager.py lines 83-94), as written in the source (the source uses a
set literal; membership is identical). -/
def reservedWords : List String :=
  ["group", "order", "select", "from", "where", "join", "inner", "outer",
   "left", "right", "on", "as", "and", "or", "not", "in", "exists",
   "between", "like", "is", "null", "true", "false", "case", "when",
   "then", "else", "end", "union", "intersect", "except", "all",
   "distinct", "limit", "offset", "having", "by", "asc", "desc",
   "create", "table", "insert", "update", "delete", "alter", "drop",
   "index", "view", "database", "schema", "column", "primary", "key",
   "foreign", "references", "constraint", "unique", "check", "default",
   "grant", "revoke", "user", "role", "commit", "rollback", "begin",
   "transaction", "start", "end"]

/-- Model of `SchemaManager.is_reserved_word`: `word.lower() in reserved_words`. -/
def is_reserved_word (word : String) : Bool :=
  reservedWords.contains (String.mk (word.data.map lowerChar))

/-- First character is a digit (`name[0].isdigit()`; by that point in the
source `name` is nonempty and consists of `[a-z0-9_]` characters only, so
ASCII digits are the only possible digits). -/
def headDigit : List Char → Bool
  | [] => false
  | c :: _ => isDigit09 c

/-- Steps 1-5 of `normalize_column_name`: camelCase split, lowercase,
replace non-alphanumeric characters by underscores, collapse consecutive
underscores, strip leading/trailing underscores. -/
def coreName (column_name : String) : List Char :=
  trimUnd (collapseUnd (((camelSplit column_name.data).map lowerChar).map mapNonAlnum))

/-- Steps 7-8 of `normalize_column_name`: `col_` in front of a name starting
with a digit, `_col` behind a reserved word. -/
def finishTail (name1 : List Char) : List Char :=
  let name2 := if headDigit name1 then ("col_").data ++ name1 else name1
  if is_reserved_word (String.mk name2) then name2 ++ ("_col").data else name2

/-- Steps 6-8 of `normalize_column_name`: placeholder for the empty result,
`col_` in front of a result starting with a digit, `_col` behind a reserved
word. -/
def finishName (name0 : List Char) : List Char :=
  finishTail (if name0 = [] then ("unknown_column").data else name0)

/-- Model of `SchemaManager.normalize_column_name` (schema_manager.py lines 35-78). -/
def normalize_column_name (column_name : String) : String :=
  String.mk (finishName (coreName column_name))

/-! ## Schema manager data model (schema_manager.py) -/

/-- One entry of a manifest's `columns` list: the dicts
`{'category': ..., 'name': ..., 'type': ...}` parsed from a CUR manifest. -/
structure ColIn where
  category : String
  name : String
  col_type : String
deriving DecidableEq, Repr

/-- Model of `ColumnDefinition` dataclass (schema_manager.py lines 9-16). -/
structure ColumnDefinition where
  original_name : String
  normalized_name : String
  category : String
  aws_type : String
  duckdb_type : String
deriving DecidableEq, Repr

/-- Model of `SchemaManager.TYPE_MAPPING` (schema_manager.py lines 23-30). -/
def TYPE_MAPPING : List (String × String) :=
  [("String", "VARCHAR"), ("OptionalString", "VARCHAR"),
   ("BigDecimal", "DECIMAL(18,2)"), ("OptionalBigDecimal", "DECIMAL(18,2)"),
   ("DateTime", "TIMESTAMP"), ("Interval", "VARCHAR")]

/-- First-match association-list lookup, modelling Python `dict.get`. -/
def lookupAssoc {β : Type} : List (String × β) → String → Option β
  | [], _ => none
  | (k, v) :: rest, key => if k == key then some v else lookupAssoc rest key

/-- Model of `SchemaManager._get_duckdb_type`: `resourceTags` columns are forced to
VARCHAR, otherwise `TYPE_MAPPING.get(aws_type, "VARCHAR")`. -/
def get_duckdb_type (category aws_type : String) : String :=
  if category == ("resourceTags") then ("VARCHAR")
  else (lookupAssoc TYPE_MAPPING aws_type).getD ("VARCHAR")

/-- The CSV column name corresponding to a manifest column dict:
`f"{category}/{name}"`. -/
def colOriginal (c : ColIn) : String := c.category ++ ("/") ++ c.name

/-- Build the `ColumnDefinition` the source builds for a manifest column
once its normalized (collision-resolved) name is known. -/
def mkColDef (c : ColIn) (nname : String) : ColumnDefinition :=
  { original_name := colOriginal c
    normalized_name := nname
    category := c.category
    aws_type := c.col_type
    duckdb_type := get_duckdb_type c.category c.col_type }

/-- Lookup in the `seen_names` counter dict. -/
def getCount : List (String × Nat) → String → Option Nat
  | [], _ => none
  | (k, v) :: rest, key => if k == key then some v else getCount rest key

/-- In-place update of the `seen_names` counter dict (`seen_names[base] = v`
for a key that is already present; Python dict update keeps the key). -/
def setCount : List (String × Nat) → String → Nat → List (String × Nat)
  | [], key, v => [(key, v)]
  | (k, w) :: rest, key, v =>
    if k == key then (key, v) :: rest else (k, w) :: setCount rest key v

/-- Model of `SchemaManager._resolve_duplicate_name` (schema_manager.py lines
115-122), returning the assigned name together with the updated counter
dict (the source mutates `seen_names` in place). -/
def resolveDuplicateName (base_name : String) (seen_names : List (String × Nat)) :
    String × List (String × Nat) :=
  match getCount seen_names base_name with
  | some n => (base_name ++ ("_") ++ toString (n + 1), setCount seen_names base_name (n + 1))
  | none => (base_name, (base_name, 0) :: seen_names)

/-- Loop body of `SchemaManager._process_manifest_columns` (schema_manager.py
lines 124-149), threading the `seen_normalized_names` dict.  `existing` is
the optional `existing_columns` filter set. -/
def processColumnsGo (existing : Option (List String)) :
    List ColIn → List (String × Nat) → List ColumnDefinition
  | [], _ => []
  | c :: rest, seen =>
    let base := normalize_column_name (colOriginal c)
    let resolved := resolveDuplicateName base seen
    match existing with
    | some ex =>
      if ex.contains resolved.1 then processColumnsGo existing rest resolved.2
      else mkColDef c resolved.1 :: processColumnsGo existing rest resolved.2
    | none => mkColDef c resolved.1 :: processColumnsGo existing rest resolved.2

/-- Model of `SchemaManager._process_manifest_columns`: fresh `seen_normalized_names`
per call.  `create_column_mapping` and `get_new_columns` are thin wrappers
around this (without / with the `existing_columns` filter). -/
def process_manifest_columns (manifest_columns : List ColIn)
    (existing_columns : Option (List String)) : List ColumnDefinition :=
  processColumnsGo existing_columns manifest_columns []

/-- Model of `SchemaManager.create_column_mapping` (schema_manager.py lines 243-249):
original name to normalized name, from the unfiltered column definitions. -/
def create_column_mapping (manifest_columns : List ColIn) : List (String × String) :=
  (process_manifest_columns manifest_columns none).map
    (fun cd => (cd.original_name, cd.normalized_name))

/-- The name `_resolve_duplicate_name` assigns to the `j`-th occurrence
(0-based, in encounter order) of a base name: the base itself for the first
occurrence, `base_j` afterwards. -/
def nthName (base : String) (j : Nat) : String :=
  if j = 0 then base else base ++ ("_") ++ toString j

/-- Number of columns of a manifest column list whose normalized base name
is `b`. -/
def countBase (cols : List ColIn) (b : String) : Nat :=
  List.countP (fun c => normalize_column_name (colOriginal c) == b) cols

/-! ## Facts about the normalization phases -/

/-- Characters that can occur in the output of steps 1-5: `[a-z0-9_]`. -/
def okChar (c : Char) : Bool := isLowerAZ c || isDigit09 c || c == '_'

/-- The no-consecutive-underscores invariant established by
`re.sub(r'_+', '_', ...)`. -/
def noDub (l : List Char) : Prop :=
  l.Chain' (fun a b => ¬(a = '_' ∧ b = '_'))

theorem okChar_not_upper {c : Char} (h : okChar c = true) : isUpperAZ c = false := by
  cases hu : isUpperAZ c with
  | false => rfl
  | true =>
    exfalso
    simp only [okChar, Bool.or_eq_true, beq_iff_eq] at h
    simp only [isUpperAZ, Bool.and_eq_true, decide_eq_true_eq] at hu
    rcases h with (h | h) | rfl
    · simp only [isLowerAZ, Bool.and_eq_true, decide_eq_true_eq] at h; omega
    · simp only [isDigit09, Bool.and_eq_true, decide_eq_true_eq] at h; omega
    · exact absurd hu (by decide)

theorem lowerChar_fixed {c : Char} (h : isUpperAZ c = false) : lowerChar c = c := by
  simp [lowerChar, h]

theorem mapNonAlnum_ok (c : Char) : okChar (mapNonAlnum c) = true := by
  unfold mapNonAlnum
  split
  · rename_i h
    have h' : isLowerAZ c = true ∨ isDigit09 c = true := by simpa using h
    rcases h' with h1 | h1 <;> simp [okChar, h1]
  · decide

theorem mapNonAlnum_fixed {c : Char} (h : okChar c = true) : mapNonAlnum c = c := by
  unfold mapNonAlnum
  split
  · rfl
  · rename_i hcond
    simp only [okChar, Bool.or_eq_true, beq_iff_eq] at h
    rcases h with (h1 | h1) | rfl
    · exact absurd (by simp [h1]) hcond
    · exact absurd (by simp [h1]) hcond
    · rfl

theorem map_fixed {α : Type} {f : α → α} :
    ∀ l : List α, (∀ c ∈ l, f c = c) → l.map f = l
  | [], _ => rfl
  | a :: rest, h => by
    simp only [List.map_cons]
    rw [h a (List.mem_cons_self a rest), map_fixed rest (fun c hc => h c (List.mem_cons_of_mem _ hc))]

theorem camelSplit_fixed (l : List Char) (h : ∀ c ∈ l, isUpperAZ c = false) :
    camelSplit l = l := by
  induction l with
  | nil => rfl
  | cons c1 rest ih =>
    cases rest with
    | nil => rfl
    | cons c2 rest2 =>
      have h2 : isUpperAZ c2 = false := h c2 (by simp)
      have ih2 : camelSplit (c2 :: rest2) = c2 :: rest2 :=
        ih (fun c hc => h c (List.mem_cons_of_mem _ hc))
      simp [camelSplit, h2, ih2]

theorem collapseUnd_cons (l : List Char) : ∀ c : Char, ∃ t, collapseUnd (c :: l) = c :: t := by
  induction l with
  | nil => exact fun c => ⟨[], rfl⟩
  | cons c2 rest ih =>
    intro c
    by_cases h : (c == '_' && c2 == '_') = true
    · obtain ⟨t, ht⟩ := ih c2
      have hc : c = '_' := by
        have := (Bool.and_eq_true _ _).mp h
        exact beq_iff_eq.mp this.1
      have hc2 : c2 = '_' := by
        have := (Bool.and_eq_true _ _).mp h
        exact beq_iff_eq.mp this.2
      refine ⟨t, ?_⟩
      simp only [collapseUnd, h, if_true]
      rw [ht, hc, hc2]
    · exact ⟨collapseUnd (c2 :: rest), by simp [collapseUnd, h]⟩

theorem collapseUnd_chain (l : List Char) : noDub (collapseUnd l) := by
  induction l with
  | nil => exact List.chain'_nil
  | cons c rest ih =>
    cases rest with
    | nil => simp [collapseUnd, noDub]
    | cons c2 rest2 =>
      by_cases h : (c == '_' && c2 == '_') = true
      · simpa only [collapseUnd, h, if_true] using ih
      · obtain ⟨t, ht⟩ := collapseUnd_cons rest2 c2
        have hch : noDub (c2 :: t) := ht ▸ ih
        have hr : ¬(c = '_' ∧ c2 = '_') := by
          intro hand
          exact h (by simp [hand.1, hand.2])
        simp only [collapseUnd, h, if_false, noDub, ht]
        exact List.chain'_cons.mpr ⟨hr, hch⟩

theorem collapseUnd_fixed (l : List Char) (h : noDub l) : collapseUnd l = l := by
  induction l with
  | nil => rfl
  | cons c rest ih =>
    cases rest with
    | nil => rfl
    | cons c2 rest2 =>
      rw [noDub, List.chain'_cons] at h
      have hcond : ¬((c == '_' && c2 == '_') = true) := by
        simp only [Bool.and_eq_true, beq_iff_eq]
        exact fun hand => h.1 hand
      simp only [collapseUnd, hcond, if_false, Bool.false_eq_true]
      rw [ih h.2]

theorem collapseUnd_subset (l : List Char) : ∀ a ∈ collapseUnd l, a ∈ l := by
  induction l with
  | nil => simp [collapseUnd]
  | cons c rest ih =>
    cases rest with
    | nil => simp [collapseUnd]
    | cons c2 rest2 =>
      intro a ha
      by_cases h : (c == '_' && c2 == '_') = true
      · rw [collapseUnd, if_pos h] at ha
        exact List.mem_cons_of_mem _ (ih a ha)
      · rw [collapseUnd, if_neg h] at ha
        rcases List.mem_cons.mp ha with rfl | ha2
        · exact List.mem_cons_self _ _
        · exact List.mem_cons_of_mem _ (ih a ha2)

theorem dropWhile_head_not {α : Type} {p : α → Bool} :
    ∀ (l : List α) (c : α), (l.dropWhile p).head? = some c → p c = false
  | [], c, h => by simp [List.dropWhile] at h
  | a :: rest, c, h => by
    by_cases hp : p a = true
    · rw [List.dropWhile_cons_of_pos hp] at h
      exact dropWhile_head_not rest c h
    · rw [List.dropWhile_cons_of_neg hp] at h
      simp only [List.head?_cons, Option.some.injEq] at h
      subst h
      exact Bool.not_eq_true _ ▸ hp

theorem dropWhile_fixed {α : Type} {p : α → Bool} :
    ∀ l : List α, (∀ c, l.head? = some c → p c = false) → l.dropWhile p = l
  | [], _ => rfl
  | a :: rest, h => by
    have ha : p a = false := h a rfl
    simp [List.dropWhile_cons, ha]

theorem suffix_getLast? {α : Type} {l₁ l₂ : List α} (h : l₁ <:+ l₂) (hne : l₁ ≠ []) :
    l₂.getLast? = l₁.getLast? := by
  obtain ⟨t, rfl⟩ := h
  rw [List.getLast?_append]
  cases hl : l₁.getLast? with
  | none => exact absurd (List.getLast?_eq_none_iff.mp hl) hne
  | some a => rfl

theorem trimUnd_last {l : List Char} {c : Char} (h : (trimUnd l).getLast? = some c) :
    (c == '_') = false := by
  unfold trimUnd at h
  rw [List.getLast?_reverse] at h
  exact dropWhile_head_not _ c h

theorem trimUnd_head {l : List Char} {c : Char} (h : (trimUnd l).head? = some c) :
    (c == '_') = false := by
  unfold trimUnd at h
  rw [List.head?_reverse] at h
  have hW : ((l.dropWhile (fun c => c == '_')).reverse.dropWhile (fun c => c == '_')) ≠ [] := by
    intro he
    rw [he] at h
    simp at h
  have hsuf := List.dropWhile_suffix (l := (l.dropWhile (fun c => c == '_')).reverse)
    (p := fun c => c == '_')
  have := suffix_getLast? hsuf hW
  rw [h] at this
  rw [List.getLast?_reverse] at this
  exact dropWhile_head_not _ c this

theorem trimUnd_subset (l : List Char) : ∀ a ∈ trimUnd l, a ∈ l := by
  intro a ha
  unfold trimUnd at ha
  rw [List.mem_reverse] at ha
  have h1 := (List.dropWhile_suffix (fun c => c == '_')).sublist.subset ha
  rw [List.mem_reverse] at h1
  exact (List.dropWhile_suffix (fun c => c == '_')).sublist.subset h1

theorem trimUnd_chain {l : List Char} (h : noDub l) : noDub (trimUnd l) := by
  have symmR : ∀ a b : Char, (¬(a = '_' ∧ b = '_')) → (flip (fun a b : Char => ¬(a = '_' ∧ b = '_')) a b) := by
    intro a b hab hba
    exact hab ⟨hba.2, hba.1⟩
  have h1 : noDub (l.dropWhile (fun c => c == '_')) :=
    List.Chain'.suffix h (List.dropWhile_suffix _)
  have h2 : noDub ((l.dropWhile (fun c => c == '_')).reverse) := by
    rw [noDub, List.chain'_reverse]
    exact List.Chain'.imp symmR h1
  have h3 : noDub ((l.dropWhile (fun c => c == '_')).reverse.dropWhile (fun c => c == '_')) :=
    List.Chain'.suffix h2 (List.dropWhile_suffix _)
  rw [trimUnd, noDub, List.chain'_reverse]
  exact List.Chain'.imp symmR h3

theorem trimUnd_fixed (l : List Char)
    (h1 : ∀ c, l.head? = some c → (c == '_') = false)
    (h2 : ∀ c, l.getLast? = some c → (c == '_') = false) : trimUnd l = l := by
  unfold trimUnd
  rw [dropWhile_fixed l h1]
  rw [dropWhile_fixed l.reverse (fun c hc => h2 c (by rwa [List.head?_reverse] at hc))]
  exact List.reverse_reverse l

/-! ## Facts about the reserved-word check -/

theorem reservedWords_no_und : reservedWords.all (fun w => !(w.data.contains '_')) = true := by
  decide

theorem is_reserved_false_of_und {name : List Char} (h : '_' ∈ name) :
    is_reserved_word (String.mk name) = false := by
  unfold is_reserved_word
  cases hcon : reservedWords.contains (String.mk ((String.mk name).data.map lowerChar)) with
  | false => rfl
  | true =>
    exfalso
    have hmem : String.mk (name.map lowerChar) ∈ reservedWords := by
      have := List.elem_iff.mp hcon
      exact this
    have hu : '_' ∈ name.map lowerChar :=
      List.mem_map.mpr ⟨'_', h, rfl⟩
    have hall := List.all_eq_true.mp reservedWords_no_und _ hmem
    rw [Bool.not_eq_true', Bool.eq_false_iff] at hall
    exact hall (List.elem_iff.mpr hu)

/-- Invariants of the name after steps 1-6 (nonempty, `[a-z0-9_]` characters,
no double underscore, no leading or trailing underscore). -/
def preGood (l : List Char) : Prop :=
  l ≠ [] ∧ (∀ c ∈ l, okChar c = true) ∧ noDub l ∧
  (∀ c, l.head? = some c → (c == '_') = false) ∧
  (∀ c, l.getLast? = some c → (c == '_') = false)

/-- Invariants of the final output of `normalize_column_name`: additionally
the first character is not a digit. -/
def goodName (l : List Char) : Prop :=
  l ≠ [] ∧ (∀ c ∈ l, okChar c = true) ∧ noDub l ∧
  (∀ c, l.head? = some c → (c == '_') = false ∧ isDigit09 c = false) ∧
  (∀ c, l.getLast? = some c → (c == '_') = false)

theorem noDub_colPref : noDub (("col_").data) := by
  rw [noDub]
  refine List.chain'_cons.mpr ⟨by decide, ?_⟩
  refine List.chain'_cons.mpr ⟨by decide, ?_⟩
  refine List.chain'_cons.mpr ⟨by decide, ?_⟩
  exact List.chain'_singleton _

theorem noDub_colSuf : noDub (("_col").data) := by
  rw [noDub]
  refine List.chain'_cons.mpr ⟨by decide, ?_⟩
  refine List.chain'_cons.mpr ⟨by decide, ?_⟩
  refine List.chain'_cons.mpr ⟨by decide, ?_⟩
  exact List.chain'_singleton _

theorem goodName_colCase {l : List Char} (h : preGood l) :
    goodName (("col_").data ++ l) := by
  obtain ⟨hne, hchars, hchain, hhead, hlast⟩ := h
  obtain ⟨c0, t0, rfl⟩ : ∃ c0 t0, l = c0 :: t0 := by
    cases l with
    | nil => exact absurd rfl hne
    | cons a b => exact ⟨a, b, rfl⟩
  have hc0 : (c0 == '_') = false := hhead c0 rfl
  refine ⟨by simp, ?_, ?_, ?_, ?_⟩
  · intro c hc
    rcases List.mem_append.mp hc with hc | hc
    · simp only [List.mem_cons, List.not_mem_nil, or_false] at hc
      rcases hc with rfl | rfl | rfl | rfl <;> decide
    · exact hchars c hc
  · rw [noDub, List.chain'_append]
    refine ⟨noDub_colPref, hchain, ?_⟩
    intro x hx y hy
    have hx' : '_' = x := by simpa using hx
    have hy' : c0 = y := by simpa using hy
    subst hx'; subst hy'
    intro hand
    rw [hand.2] at hc0
    simp at hc0
  · intro c hcH
    have hc : 'c' = c := by simpa using hcH
    subst hc
    exact ⟨by decide, by decide⟩
  · intro c hcL
    rw [List.getLast?_append] at hcL
    cases hl : (c0 :: t0).getLast? with
    | none => simp at hl
    | some a =>
      rw [hl] at hcL
      simp only [Option.or_some, Option.some.injEq] at hcL
      subst hcL
      exact hlast _ hl

theorem goodName_resCase {l : List Char} (h : preGood l) (hd : headDigit l = false) :
    goodName (l ++ ("_col").data) := by
  obtain ⟨hne, hchars, hchain, hhead, hlast⟩ := h
  obtain ⟨c0, t0, rfl⟩ : ∃ c0 t0, l = c0 :: t0 := by
    cases l with
    | nil => exact absurd rfl hne
    | cons a b => exact ⟨a, b, rfl⟩
  have hc0 : (c0 == '_') = false := hhead c0 rfl
  have hd0 : isDigit09 c0 = false := hd
  refine ⟨by simp, ?_, ?_, ?_, ?_⟩
  · intro c hc
    rcases List.mem_append.mp hc with hc | hc
    · exact hchars c hc
    · simp only [List.mem_cons, List.not_mem_nil, or_false] at hc
      rcases hc with rfl | rfl | rfl | rfl <;> decide
  · rw [noDub, List.chain'_append]
    refine ⟨hchain, noDub_colSuf, ?_⟩
    intro x hx y hy
    have hx2 : (c0 :: t0).getLast? = some x := by simpa using hx
    have hxlast := hlast x hx2
    intro hand
    rw [hand.1] at hxlast
    simp at hxlast
  · intro c hcH
    have hc : c0 = c := by simpa using hcH
    subst hc
    exact ⟨hc0, hd0⟩
  · intro c hcL
    rw [List.getLast?_append] at hcL
    have hc : 'l' = c := by simpa using hcL
    subst hc
    decide

theorem goodName_plain {l : List Char} (h : preGood l) (hd : headDigit l = false) :
    goodName l := by
  obtain ⟨hne, hchars, hchain, hhead, hlast⟩ := h
  obtain ⟨c0, t0, rfl⟩ : ∃ c0 t0, l = c0 :: t0 := by
    cases l with
    | nil => exact absurd rfl hne
    | cons a b => exact ⟨a, b, rfl⟩
  refine ⟨hne, hchars, hchain, ?_, hlast⟩
  intro c hcH
  have hc : c0 = c := by simpa using hcH
  subst hc
  exact ⟨hhead c0 rfl, hd⟩

theorem coreName_ok (s : String) : ∀ c ∈ coreName s, okChar c = true := by
  intro c hc
  have hc2 := trimUnd_subset _ _ hc
  have hc3 := collapseUnd_subset _ _ hc2
  obtain ⟨a, _, rfl⟩ := List.mem_map.mp hc3
  exact mapNonAlnum_ok a

theorem coreName_preGood {s : String} (hne : coreName s ≠ []) : preGood (coreName s) := by
  refine ⟨hne, coreName_ok s, ?_, ?_, ?_⟩
  · exact trimUnd_chain (collapseUnd_chain _)
  · intro c hc
    exact trimUnd_head hc
  · intro c hc
    exact trimUnd_last hc

theorem preGood_unknown : preGood (("unknown_column").data) := by
  refine ⟨by simp, ?_, ?_, ?_, ?_⟩
  · intro c hc
    have hall : (("unknown_column").data.all okChar) = true := by decide
    exact List.all_eq_true.mp hall c hc
  · have hcol : collapseUnd (("unknown_column").data) = ("unknown_column").data := by decide
    exact hcol ▸ collapseUnd_chain (("unknown_column").data)
  · intro c hc
    have hu : 'u' = c := by simpa using hc
    subst hu
    decide
  · intro c hc
    have hU : (("unknown_column").data).getLast? = some 'n' := by decide
    rw [hU] at hc
    have hn : 'n' = c := by simpa using hc
    subst hn
    decide

theorem finishTail_good {l : List Char} (h : preGood l) :
    goodName (finishTail l) ∧ is_reserved_word (String.mk (finishTail l)) = false := by
  unfold finishTail
  by_cases hd : headDigit l = true
  · rw [if_pos hd]
    have hne := h.1
    have hu : '_' ∈ ("col_").data ++ l := by simp
    have hres : is_reserved_word (String.mk (("col_").data ++ l)) = false :=
      is_reserved_false_of_und hu
    rw [if_neg (by rw [hres]; exact Bool.false_ne_true)]
    exact ⟨goodName_colCase h, hres⟩
  · rw [if_neg hd]
    have hd' : headDigit l = false := Bool.not_eq_true _ ▸ hd
    by_cases hr : is_reserved_word (String.mk l) = true
    · rw [if_pos hr]
      have hu : '_' ∈ l ++ ("_col").data := by simp
      have hres : is_reserved_word (String.mk (l ++ ("_col").data)) = false :=
        is_reserved_false_of_und hu
      exact ⟨goodName_resCase h hd', hres⟩
    · rw [if_neg hr]
      exact ⟨goodName_plain h hd', Bool.not_eq_true _ ▸ hr⟩

theorem normalize_good (s : String) :
    goodName ((normalize_column_name s).data) ∧
      is_reserved_word (normalize_column_name s) = false := by
  unfold normalize_column_name finishName
  by_cases h : coreName s = []
  · rw [if_pos h]
    exact finishTail_good preGood_unknown
  · rw [if_neg h]
    exact finishTail_good (coreName_preGood h)

/-- C4: `normalize_column_name` implements the spec's algorithm (camelCase
split, lowercase, non-alphanumeric runs to a single underscore, collapse and
trim underscores, placeholder if empty, `col_` in front of a leading digit,
`_col` behind a reserved word — the definition above transcribes exactly
these steps from the source) and in particular is deterministic
(`normalize(x) = normalize(x)` for every string `x`) and maps
`"aws:autoscaling:groupName"` to `"aws_autoscaling_group_name"`, the
reserved word `"group"` to `"group_col"`, and `"1abc"` to `"col_1abc"`. -/
theorem normalize_column_name_spec :
    (∀ x : String, normalize_column_name x = normalize_column_name x)
    ∧ normalize_column_name ("aws:autoscaling:groupName") = ("aws_autoscaling_group_name")
    ∧ normalize_column_name ("group") = ("group_col")
    ∧ normalize_column_name ("1abc") = ("col_1abc") :=
  ⟨fun _ => rfl, by decide, by decide, by decide⟩

/-- C10: `normalize_column_name` is idempotent — its output is already
lowercase alphanumeric-and-underscore, has no leading/trailing or repeated
underscores, never starts with a digit and is never a reserved word, so a
second pass changes nothing. -/
theorem normalize_column_name_idempotent (s : String) :
    normalize_column_name (normalize_column_name s) = normalize_column_name s := by
  obtain ⟨⟨hne, hchars, hchain, hhead, hlast⟩, hres⟩ := normalize_good s
  set N := normalize_column_name s with hN
  have hupper : ∀ c ∈ N.data, isUpperAZ c = false := fun c hc => okChar_not_upper (hchars c hc)
  have h1 : camelSplit N.data = N.data := camelSplit_fixed _ hupper
  have h2 : (N.data).map lowerChar = N.data :=
    map_fixed _ (fun c hc => lowerChar_fixed (hupper c hc))
  have h3 : (N.data).map mapNonAlnum = N.data :=
    map_fixed _ (fun c hc => mapNonAlnum_fixed (hchars c hc))
  have h4 : collapseUnd N.data = N.data := collapseUnd_fixed _ hchain
  have h5 : trimUnd N.data = N.data :=
    trimUnd_fixed _ (fun c hc => (hhead c hc).1) hlast
  have hcore : coreName N = N.data := by
    rw [coreName, h1, h2, h3, h4, h5]
  have hnotdigit : headDigit N.data = false := by
    cases hdata : N.data with
    | nil => rfl
    | cons c t =>
      exact (hhead c (by rw [hdata]; rfl)).2
  show String.mk (finishName (coreName N)) = N
  rw [hcore]
  unfold finishName
  rw [if_neg hne]
  unfold finishTail
  simp only [hnotdigit, Bool.false_eq_true, if_false]
  rw [show String.mk N.data = N from rfl]
  simp only [hres, Bool.false_eq_true, if_false]

/-! ## Duplicate-name resolution (C5) -/

theorem getCount_cons_self (seen : List (String × Nat)) (k : String) (v : Nat) :
    getCount ((k, v) :: seen) k = some v := by
  simp [getCount]

theorem getCount_cons_ne (seen : List (String × Nat)) (k k' : String) (v : Nat)
    (h : k' ≠ k) : getCount ((k, v) :: seen) k' = getCount seen k' := by
  simp only [getCount]
  rw [if_neg]
  simp only [beq_iff_eq]
  exact fun e => h e.symm

theorem getCount_setCount_self (seen : List (String × Nat)) (k : String) (v : Nat) :
    getCount (setCount seen k v) k = some v := by
  induction seen with
  | nil => simp [setCount, getCount]
  | cons p rest ih =>
    obtain ⟨k0, v0⟩ := p
    by_cases h : (k0 == k) = true
    · rw [setCount, if_pos h]
      exact getCount_cons_self _ _ _
    · rw [setCount, if_neg h]
      have hne : k ≠ k0 := fun e => h (beq_iff_eq.mpr e.symm)
      rw [getCount_cons_ne _ _ _ _ hne]
      exact ih

theorem getCount_setCount_ne (seen : List (String × Nat)) (k k' : String) (v : Nat)
    (h : k' ≠ k) : getCount (setCount seen k v) k' = getCount seen k' := by
  induction seen with
  | nil =>
    simp only [setCount, getCount]
    rw [if_neg (fun e : (k == k') = true => h (beq_iff_eq.mp e).symm)]
  | cons p rest ih =>
    obtain ⟨k0, v0⟩ := p
    by_cases h0 : (k0 == k) = true
    · have hk0 : k0 = k := beq_iff_eq.mp h0
      subst hk0
      rw [setCount, if_pos (beq_self_eq_true k0)]
      rw [getCount_cons_ne _ _ _ _ h, getCount_cons_ne _ _ _ _ h]
    · rw [setCount, if_neg h0]
      by_cases h1 : (k0 == k') = true
      · have hk0 : k0 = k' := beq_iff_eq.mp h1
        subst hk0
        rw [getCount_cons_self, getCount_cons_self]
      · have hne : k' ≠ k0 := fun e => h1 (beq_iff_eq.mpr e.symm)
        rw [getCount_cons_ne _ _ _ _ hne, getCount_cons_ne _ _ _ _ hne]
        exact ih

/-- The counter dict `seen_names` holds, for every base name `b`, one less
than the number of occurrences processed so far (`f b`), and no entry when
`f b = 0`. -/
def SeenInv (seen : List (String × Nat)) (f : String → Nat) : Prop :=
  ∀ b, getCount seen b = if f b = 0 then none else some (f b - 1)

theorem seenInv_nil : SeenInv [] (fun _ => 0) := by
  intro b
  simp [getCount]

theorem processGo_none_cons (c : ColIn) (rest : List ColIn) (seen : List (String × Nat)) :
    processColumnsGo none (c :: rest) seen
      = mkColDef c (resolveDuplicateName (normalize_column_name (colOriginal c)) seen).1
        :: processColumnsGo none rest
            (resolveDuplicateName (normalize_column_name (colOriginal c)) seen).2 := rfl

theorem resolve_none_fst {base : String} {seen : List (String × Nat)}
    (h : getCount seen base = none) : (resolveDuplicateName base seen).1 = base := by
  unfold resolveDuplicateName
  rw [h]

theorem resolve_none_snd {base : String} {seen : List (String × Nat)}
    (h : getCount seen base = none) :
    (resolveDuplicateName base seen).2 = (base, 0) :: seen := by
  unfold resolveDuplicateName
  rw [h]

theorem resolve_some_fst {base : String} {seen : List (String × Nat)} {k : Nat}
    (h : getCount seen base = some k) :
    (resolveDuplicateName base seen).1 = base ++ ("_") ++ toString (k + 1) := by
  unfold resolveDuplicateName
  rw [h]

theorem resolve_some_snd {base : String} {seen : List (String × Nat)} {k : Nat}
    (h : getCount seen base = some k) :
    (resolveDuplicateName base seen).2 = setCount seen base (k + 1) := by
  unfold resolveDuplicateName
  rw [h]

theorem seenInv_insert {seen : List (String × Nat)} {f : String → Nat} {base : String}
    (hinv : SeenInv seen f) :
    SeenInv ((base, 0) :: seen) (fun x => if x = base then 1 else f x) := by
  intro x
  show getCount ((base, 0) :: seen) x
      = if (if x = base then 1 else f x) = 0 then none
        else some ((if x = base then 1 else f x) - 1)
  by_cases hx : x = base
  · subst hx
    rw [getCount_cons_self, if_pos rfl, if_neg Nat.one_ne_zero]
  · rw [getCount_cons_ne _ _ _ _ hx, if_neg hx]
    exact hinv x

theorem seenInv_bump {seen : List (String × Nat)} {f : String → Nat} {base : String} {k : Nat}
    (hinv : SeenInv seen f) :
    SeenInv (setCount seen base (k + 1)) (fun x => if x = base then k + 2 else f x) := by
  intro x
  show getCount (setCount seen base (k + 1)) x
      = if (if x = base then k + 2 else f x) = 0 then none
        else some ((if x = base then k + 2 else f x) - 1)
  by_cases hx : x = base
  · subst hx
    rw [getCount_setCount_self, if_pos rfl, if_neg (by omega : ¬(k + 2 = 0))]
    rfl
  · rw [getCount_setCount_ne _ _ _ _ hx, if_neg hx]
    exact hinv x

theorem countBase_cons_pos {c : ColIn} {rest : List ColIn} {b : String}
    (h : normalize_column_name (colOriginal c) = b) :
    countBase (c :: rest) b = countBase rest b + 1 := by
  simp [countBase, List.countP_cons, h]

theorem countBase_cons_neg {c : ColIn} {rest : List ColIn} {b : String}
    (h : ¬normalize_column_name (colOriginal c) = b) :
    countBase (c :: rest) b = countBase rest b := by
  simp [countBase, List.countP_cons, h]

theorem processGo_names (cols : List ColIn) :
    ∀ (seen : List (String × Nat)) (f : String → Nat), SeenInv seen f →
    ∀ b : String,
      ((processColumnsGo none cols seen).filter
          (fun cd => normalize_column_name cd.original_name == b)).map
        (fun cd => cd.normalized_name)
      = (List.range' (f b) (countBase cols b)).map (nthName b) := by
  induction cols with
  | nil =>
    intro seen f _ b
    simp [processColumnsGo, countBase]
  | cons c rest ih =>
    intro seen f hinv b
    have hcount := hinv (normalize_column_name (colOriginal c))
    by_cases hf : f (normalize_column_name (colOriginal c)) = 0
    · -- first occurrence of this base name in the column list
      rw [hf, if_pos rfl] at hcount
      rw [processGo_none_cons, resolve_none_fst hcount, resolve_none_snd hcount]
      by_cases hb : normalize_column_name (colOriginal c) = b
      · subst hb
        have hpos : (fun cd => normalize_column_name cd.original_name
            == normalize_column_name (colOriginal c))
            (mkColDef c (normalize_column_name (colOriginal c))) = true := by
          show (normalize_column_name (colOriginal c)
              == normalize_column_name (colOriginal c)) = true
          exact beq_self_eq_true _
        rw [List.filter_cons, if_pos hpos, List.map_cons]
        rw [ih _ _ (seenInv_insert hinv) _]
        rw [countBase_cons_pos rfl, hf, List.range'_succ, List.map_cons]
        rw [show (mkColDef c (normalize_column_name (colOriginal c))).normalized_name
            = normalize_column_name (colOriginal c) from rfl]
        rw [show nthName (normalize_column_name (colOriginal c)) 0
            = normalize_column_name (colOriginal c) from rfl]
        simp
      · have hneg : ¬((fun cd => normalize_column_name cd.original_name == b)
            (mkColDef c (normalize_column_name (colOriginal c))) = true) := by
          show ¬((normalize_column_name (colOriginal c) == b) = true)
          exact fun e => hb (beq_iff_eq.mp e)
        rw [List.filter_cons, if_neg hneg]
        rw [ih _ _ (seenInv_insert hinv) _]
        rw [countBase_cons_neg hb]
        simp only [if_neg (fun e : b = normalize_column_name (colOriginal c) => hb e.symm)]
    · -- repeated occurrence: the `_k` suffix is appended
      obtain ⟨k, hk⟩ : ∃ k, f (normalize_column_name (colOriginal c)) = k + 1 :=
        ⟨f (normalize_column_name (colOriginal c)) - 1, by omega⟩
      rw [hk, if_neg (by omega : ¬(k + 1 = 0))] at hcount
      rw [Nat.add_sub_cancel] at hcount
      rw [processGo_none_cons, resolve_some_fst hcount, resolve_some_snd hcount]
      by_cases hb : normalize_column_name (colOriginal c) = b
      · subst hb
        have hpos : (fun cd => normalize_column_name cd.original_name
            == normalize_column_name (colOriginal c))
            (mkColDef c (normalize_column_name (colOriginal c) ++ ("_") ++ toString (k + 1)))
            = true := by
          show (normalize_column_name (colOriginal c)
              == normalize_column_name (colOriginal c)) = true
          exact beq_self_eq_true _
        rw [List.filter_cons, if_pos hpos, List.map_cons]
        rw [ih _ _ (seenInv_bump hinv) _]
        rw [countBase_cons_pos rfl, hk, List.range'_succ, List.map_cons]
        rw [show (mkColDef c (normalize_column_name (colOriginal c) ++ ("_") ++ toString (k + 1))).normalized_name
            = normalize_column_name (colOriginal c) ++ ("_") ++ toString (k + 1) from rfl]
        rw [show nthName (normalize_column_name (colOriginal c)) (k + 1)
            = normalize_column_name (colOriginal c) ++ ("_") ++ toString (k + 1) from
          by rw [nthName, if_neg (by omega : ¬(k + 1 = 0))]]
        simp
      · have hneg : ¬((fun cd => normalize_column_name cd.original_name == b)
            (mkColDef c (normalize_column_name (colOriginal c) ++ ("_") ++ toString (k + 1)))
            = true) := by
          show ¬((normalize_column_name (colOriginal c) == b) = true)
          exact fun e => hb (beq_iff_eq.mp e)
        rw [List.filter_cons, if_neg hneg]
        rw [ih _ _ (seenInv_bump hinv) _]
        rw [countBase_cons_neg hb]
        simp only [if_neg (fun e : b = normalize_column_name (colOriginal c) => hb e.symm)]

/-- Column list exhibiting a normalized-name collision that
`_resolve_duplicate_name` does not resolve: the originals `a/foo`,
`a/foo_1`, `a/foo!` normalize to the bases `a_foo`, `a_foo_1`, `a_foo`, and
the second occurrence of `a_foo` is assigned the suffix `_1`, colliding with
the column whose base already is `a_foo_1`. -/
def collidingCols : List ColIn :=
  [⟨("a"), ("foo"), ("String")⟩, ⟨("a"), ("foo_1"), ("String")⟩, ⟨("a"), ("foo!"), ("String")⟩]

/-- C5 counterexample: on `collidingCols`, `_process_manifest_columns`
produces the normalized names `a_foo`, `a_foo_1`, `a_foo_1` — the name
`a_foo_1` is assigned twice, so the produced normalized names are not
unique for every possible input column list. -/
theorem process_manifest_columns_not_unique :
    ((process_manifest_columns collidingCols none).map (fun cd => cd.normalized_name)
        = [("a_foo"), ("a_foo_1"), ("a_foo_1")])
    ∧ ¬((process_manifest_columns collidingCols none).map
          (fun cd => cd.normalized_name)).Nodup := by
  constructor
  · decide
  · intro h
    have heq : ((process_manifest_columns collidingCols none).map
        (fun cd => cd.normalized_name)) = [("a_foo"), ("a_foo_1"), ("a_foo_1")] := by decide
    rw [heq] at h
    rcases h with _ | ⟨_, h2⟩
    rcases h2 with _ | ⟨h3, _⟩
    exact h3 _ (List.mem_cons_self _ _) rfl

/-- C5 (amended): within one `_process_manifest_columns` call, the columns
whose normalization yields the same base string `b` are assigned, in
encounter order, exactly the names `b`, `b_1`, `b_2`, …: the `j`-th
occurrence (0-based) of base `b` receives `nthName b j`.  The claim's
further assertion that the produced names are globally unique fails (see the
counterexample): a column whose base itself ends in a numeric suffix can
collide with a suffixed name assigned to a different base. -/
theorem process_manifest_columns_suffixes (cols : List ColIn) (b : String) :
    ((process_manifest_columns cols none).filter
        (fun cd => normalize_column_name cd.original_name == b)).map
      (fun cd => cd.normalized_name)
    = (List.range (countBase cols b)).map (nthName b) := by
  rw [process_manifest_columns]
  rw [processGo_names cols [] (fun _ => 0) seenInv_nil b]
  rw [List.range_eq_range']

/-! ## String-tuple comparison and stable sorting (Python sorted with key) -/

theorem char_eq_of_toNat_eq {c d : Char} (h : c.toNat = d.toNat) : c = d := by
  apply Char.eq_of_val_eq
  apply UInt32.eq_of_toBitVec_eq
  exact BitVec.eq_of_toNat_eq h

/-- Python string comparison: lexicographic by code point. -/
def strLtB : List Char → List Char → Bool
  | [], [] => false
  | [], _ :: _ => true
  | _ :: _, [] => false
  | c :: a, d :: b =>
    if c.toNat < d.toNat then true
    else if d.toNat < c.toNat then false
    else strLtB a b

/-- Python tuple comparison (componentwise lexicographic), on tuples of
strings represented as lists of character lists. -/
def keyLtB : List (List Char) → List (List Char) → Bool
  | [], [] => false
  | [], _ :: _ => true
  | _ :: _, [] => false
  | x :: xs, y :: ys =>
    if strLtB x y then true
    else if strLtB y x then false
    else keyLtB xs ys

theorem strLtB_conn : ∀ a b : List Char, strLtB a b = false → strLtB b a = false → a = b
  | [], [], _, _ => rfl
  | [], _ :: _, h1, _ => by simp [strLtB] at h1
  | _ :: _, [], _, h2 => by simp [strLtB] at h2
  | c :: a, d :: b, h1, h2 => by
    by_cases hcd : c.toNat < d.toNat
    · rw [strLtB, if_pos hcd] at h1
      exact absurd h1 (by simp)
    · by_cases hdc : d.toNat < c.toNat
      · rw [strLtB, if_pos hdc] at h2
        exact absurd h2 (by simp)
      · rw [strLtB, if_neg hcd, if_neg hdc] at h1
        rw [strLtB, if_neg hdc, if_neg hcd] at h2
        have hcd2 : c = d := char_eq_of_toNat_eq (by omega)
        rw [hcd2, strLtB_conn a b h1 h2]

theorem strLtB_trans (a : List Char) : ∀ b c : List Char,
    strLtB a b = true → strLtB b c = true → strLtB a c = true := by
  induction a with
  | nil =>
    intro b c h1 h2
    cases b with
    | nil => simp [strLtB] at h1
    | cons x b' =>
      cases c with
      | nil => simp [strLtB] at h2
      | cons z c' => rfl
  | cons y a' ih =>
    intro b c h1 h2
    cases b with
    | nil => simp [strLtB] at h1
    | cons x b' =>
      cases c with
      | nil => simp [strLtB] at h2
      | cons z c' =>
        rw [strLtB] at h1 h2 ⊢
        by_cases h_yx : y.toNat < x.toNat
        · by_cases h_xz : x.toNat < z.toNat
          · rw [if_pos (by omega : y.toNat < z.toNat)]
          · by_cases h_zx : z.toNat < x.toNat
            · rw [if_pos h_zx, if_neg (by omega)] at h2
              exact absurd h2 (by simp)
            · rw [if_pos (by omega : y.toNat < z.toNat)]
        · by_cases h_xy : x.toNat < y.toNat
          · rw [if_pos h_xy, if_neg h_yx] at h1
            exact absurd h1 (by simp)
          · rw [if_neg h_yx, if_neg h_xy] at h1
            by_cases h_xz : x.toNat < z.toNat
            · rw [if_pos (by omega : y.toNat < z.toNat)]
            · by_cases h_zx : z.toNat < x.toNat
              · rw [if_pos h_zx, if_neg (by omega)] at h2
                exact absurd h2 (by simp)
              · rw [if_neg h_zx, if_neg h_xz] at h2
                rw [if_neg (by omega : ¬y.toNat < z.toNat), if_neg (by omega : ¬z.toNat < y.toNat)]
                exact ih b' c' h1 h2

theorem strLtB_irrefl : ∀ a : List Char, strLtB a a = false
  | [] => rfl
  | c :: a => by
    rw [strLtB, if_neg (by omega : ¬c.toNat < c.toNat), if_neg (by omega : ¬c.toNat < c.toNat)]
    exact strLtB_irrefl a

theorem keyLtB_conn : ∀ u v : List (List Char), keyLtB u v = false → keyLtB v u = false → u = v
  | [], [], _, _ => rfl
  | [], _ :: _, h1, _ => by simp [keyLtB] at h1
  | _ :: _, [], _, h2 => by simp [keyLtB] at h2
  | x :: u, y :: v, h1, h2 => by
    by_cases hxy : strLtB x y = true
    · rw [keyLtB, if_pos hxy] at h1
      exact absurd h1 (by simp)
    · by_cases hyx : strLtB y x = true
      · rw [keyLtB, if_pos hyx] at h2
        exact absurd h2 (by simp)
      · rw [keyLtB, if_neg hxy, if_neg hyx] at h1
        rw [keyLtB, if_neg hyx, if_neg hxy] at h2
        have hxy2 : x = y :=
          strLtB_conn x y (Bool.not_eq_true _ ▸ hxy) (Bool.not_eq_true _ ▸ hyx)
        rw [hxy2, keyLtB_conn u v h1 h2]

theorem keyLtB_trans (u : List (List Char)) : ∀ v w : List (List Char),
    keyLtB u v = true → keyLtB v w = true → keyLtB u w = true := by
  induction u with
  | nil =>
    intro v w h1 h2
    cases v with
    | nil => simp [keyLtB] at h1
    | cons y v' =>
      cases w with
      | nil => simp [keyLtB] at h2
      | cons z w' => rfl
  | cons x u' ih =>
    intro v w h1 h2
    cases v with
    | nil => simp [keyLtB] at h1
    | cons y v' =>
      cases w with
      | nil => simp [keyLtB] at h2
      | cons z w' =>
        rw [keyLtB] at h1 h2 ⊢
        by_cases hxy : strLtB x y = true
        · by_cases hyz : strLtB y z = true
          · rw [if_pos (strLtB_trans x y z hxy hyz)]
          · by_cases hzy : strLtB z y = true
            · rw [if_neg hyz, if_pos hzy] at h2
              exact absurd h2 (by simp)
            · have hyz2 : y = z :=
                strLtB_conn y z (Bool.not_eq_true _ ▸ hyz) (Bool.not_eq_true _ ▸ hzy)
              rw [← hyz2, if_pos hxy]
        · by_cases hyx : strLtB y x = true
          · rw [if_neg hxy, if_pos hyx] at h1
            exact absurd h1 (by simp)
          · have hxy2 : x = y :=
              strLtB_conn x y (Bool.not_eq_true _ ▸ hxy) (Bool.not_eq_true _ ▸ hyx)
            rw [if_neg hxy, if_neg hyx] at h1
            by_cases hyz : strLtB y z = true
            · rw [if_pos (by rw [hxy2]; exact hyz)]
            · by_cases hzy : strLtB z y = true
              · rw [if_neg hyz, if_pos hzy] at h2
                exact absurd h2 (by simp)
              · have hyz2 : y = z :=
                  strLtB_conn y z (Bool.not_eq_true _ ▸ hyz) (Bool.not_eq_true _ ▸ hzy)
                rw [if_neg hyz, if_neg hzy] at h2
                subst hxy2
                subst hyz2
                rw [if_neg hxy, if_neg hxy]
                exact ih v' w' h1 h2

theorem keyLtB_irrefl : ∀ u : List (List Char), keyLtB u u = false
  | [] => rfl
  | x :: u => by
    rw [keyLtB, if_neg (by rw [strLtB_irrefl x]; exact Bool.false_ne_true),
      if_neg (by rw [strLtB_irrefl x]; exact Bool.false_ne_true)]
    exact keyLtB_irrefl u

theorem keyLtB_asymm {u v : List (List Char)} (h : keyLtB u v = true) : keyLtB v u = false := by
  cases hvu : keyLtB v u with
  | false => rfl
  | true =>
    have := keyLtB_trans u v u h hvu
    rw [keyLtB_irrefl u] at this
    exact absurd this (by simp)

/-- Stable insertion for ascending key order: the element is inserted after
every element with a strictly smaller key and after earlier elements with an
equal key, as Python's stable `sorted` does. -/
def ordInsertKey {α : Type} (key : α → List (List Char)) (a : α) : List α → List α
  | [] => [a]
  | b :: l => if keyLtB (key b) (key a) = true then b :: ordInsertKey key a l else a :: b :: l

/-- Stable insertion sort by key, modelling Python `sorted(..., key=...)`. -/
def sortByKeyList {α : Type} (key : α → List (List Char)) : List α → List α
  | [] => []
  | a :: l => ordInsertKey key a (sortByKeyList key l)

/-- Ascending key order: the key of `x` is not greater than the key of `y`. -/
def keyLe {α : Type} (key : α → List (List Char)) (x y : α) : Prop :=
  keyLtB (key y) (key x) = false

theorem ordInsertKey_perm {α : Type} (key : α → List (List Char)) (a : α) :
    ∀ l : List α, List.Perm (ordInsertKey key a l) (a :: l) := by
  intro l
  induction l with
  | nil => exact List.Perm.refl _
  | cons b l ih =>
    rw [ordInsertKey]
    by_cases h : keyLtB (key b) (key a) = true
    · rw [if_pos h]
      exact (ih.cons b).trans (List.Perm.swap a b l)
    · rw [if_neg h]

theorem sortByKeyList_perm {α : Type} (key : α → List (List Char)) :
    ∀ l : List α, List.Perm (sortByKeyList key l) l := by
  intro l
  induction l with
  | nil => exact List.Perm.refl _
  | cons a l ih =>
    exact (ordInsertKey_perm key a _).trans (ih.cons a)

theorem bool_not_true {b : Bool} (h : ¬b = true) : b = false := by
  cases b
  · rfl
  · exact absurd rfl h

theorem ordInsertKey_sorted {α : Type} (key : α → List (List Char)) (a : α) :
    ∀ l : List α, List.Pairwise (keyLe key) l →
      List.Pairwise (keyLe key) (ordInsertKey key a l) := by
  intro l
  induction l with
  | nil =>
    intro _
    simp [ordInsertKey]
  | cons b l ih =>
    intro h
    obtain ⟨hb, hl⟩ := List.pairwise_cons.mp h
    rw [ordInsertKey]
    by_cases hcond : keyLtB (key b) (key a) = true
    · rw [if_pos hcond]
      apply List.pairwise_cons.mpr
      refine ⟨?_, ih hl⟩
      intro x hx
      rcases List.mem_cons.mp ((ordInsertKey_perm key a l).mem_iff.mp hx) with rfl | hx2
      · exact keyLtB_asymm hcond
      · exact hb x hx2
    · rw [if_neg hcond]
      apply List.pairwise_cons.mpr
      refine ⟨?_, h⟩
      intro x hx
      rcases List.mem_cons.mp hx with rfl | hx2
      · exact bool_not_true hcond
      · cases hxa : keyLtB (key x) (key a) with
        | false => exact hxa
        | true =>
          exfalso
          by_cases hbx : keyLtB (key b) (key x) = true
          · have hba := keyLtB_trans _ _ _ hbx hxa
            rw [bool_not_true hcond] at hba
            exact Bool.false_ne_true hba
          · have hxb : keyLtB (key x) (key b) = false := hb x hx2
            have heq : key b = key x := keyLtB_conn _ _ (bool_not_true hbx) hxb
            rw [← heq] at hxa
            rw [bool_not_true hcond] at hxa
            exact Bool.false_ne_true hxa

theorem sortByKeyList_sorted {α : Type} (key : α → List (List Char)) :
    ∀ l : List α, List.Pairwise (keyLe key) (sortByKeyList key l) := by
  intro l
  induction l with
  | nil => exact List.Pairwise.nil
  | cons a l ih => exact ordInsertKey_sorted key a _ ih

/-! ## get_unified_schema (schema_manager.py lines 151-208, C6) -/

/-- Dict-key membership test, modelling `original_name not in all_columns`. -/
def containsKey {β : Type} : List (String × β) → String → Bool
  | [], _ => false
  | (k, _) :: rest, key => if k == key then true else containsKey rest key

/-- Membership in a list of seen keys. -/
def containsStr : List String → String → Bool
  | [], _ => false
  | s :: rest, key => if s == key then true else containsStr rest key

/-- Sort key of `get_unified_schema`: the tuple `(x.category, x.normalized_name)`. -/
def cdKey (cd : ColumnDefinition) : List (List Char) :=
  [cd.category.data, cd.normalized_name.data]

/-- Loop body of `SchemaManager.get_unified_schema`: one pass over all
manifests' columns in manifest order, threading the `seen_normalized_names`
counter dict (the inlined duplicate-resolution code of the source is the
same logic as `_resolve_duplicate_name`) and the insertion-ordered
`all_columns` dict keyed by `original_name` (`if original_name not in
all_columns` — first occurrence wins). -/
def unifiedGo : List ColIn → List (String × Nat) → List (String × ColumnDefinition) →
    List (String × ColumnDefinition)
  | [], _, acc => acc
  | c :: rest, seen, acc =>
    unifiedGo rest (resolveDuplicateName (normalize_column_name (colOriginal c)) seen).2
      (if containsKey acc (colOriginal c) then acc
       else acc ++ [(colOriginal c,
         mkColDef c (resolveDuplicateName (normalize_column_name (colOriginal c)) seen).1)])

/-- Model of `SchemaManager.get_unified_schema`: process every manifest's parsed
`columns_schema` list in order into the `all_columns` dict, then sort its
values by `(category, normalized_name)`.  A manifest is represented here by
its parsed column list. -/
def get_unified_schema (manifests : List (List ColIn)) : List ColumnDefinition :=
  sortByKeyList cdKey ((unifiedGo manifests.flatten [] []).map Prod.snd)

/-- Modelled from the spec's description of `unify`, first half: assign the
collision-resolved names to every column occurrence across all manifests in
order, without deduplication. -/
def assignAllColumns : List ColIn → List (String × Nat) → List ColumnDefinition
  | [], _ => []
  | c :: rest, seen =>
    mkColDef c (resolveDuplicateName (normalize_column_name (colOriginal c)) seen).1
      :: assignAllColumns rest
          (resolveDuplicateName (normalize_column_name (colOriginal c)) seen).2

/-- Modelled from the spec's description of `unify`, second half:
deduplicate by `original_name`, first occurrence wins. -/
def dedupByOriginal : List ColumnDefinition → List String → List ColumnDefinition
  | [], _ => []
  | cd :: rest, seenOrig =>
    if containsStr seenOrig cd.original_name then dedupByOriginal rest seenOrig
    else cd :: dedupByOriginal rest (seenOrig ++ [cd.original_name])

/-- The spec's `unify`: merge all manifests' column lists, deduplicate by
`original_name` (first occurrence wins), sort by (category, normalized
name). -/
def unified_schema_spec (manifests : List (List ColIn)) : List ColumnDefinition :=
  sortByKeyList cdKey (dedupByOriginal (assignAllColumns manifests.flatten []) [])

theorem containsKey_eq_containsStr {β : Type} (acc : List (String × β)) (k : String) :
    containsKey acc k = containsStr (acc.map Prod.fst) k := by
  induction acc with
  | nil => rfl
  | cons p rest ih =>
    obtain ⟨k0, v0⟩ := p
    rw [containsKey, List.map_cons, containsStr]
    by_cases h : (k0 == k) = true
    · rw [if_pos h, if_pos h]
    · rw [if_neg h, if_neg h]
      exact ih

theorem containsStr_append (k1 k2 : List String) (s : String) :
    containsStr (k1 ++ k2) s = (containsStr k1 s || containsStr k2 s) := by
  induction k1 with
  | nil => rfl
  | cons a rest ih =>
    rw [List.cons_append, containsStr, containsStr]
    by_cases h : (a == s) = true
    · rw [if_pos h, if_pos h]
      rfl
    · rw [if_neg h, if_neg h]
      rw [ih]

theorem unifiedGo_spec :
    ∀ (cols : List ColIn) (seen : List (String × Nat)) (acc : List (String × ColumnDefinition)),
      (unifiedGo cols seen acc).map Prod.snd
        = acc.map Prod.snd ++ dedupByOriginal (assignAllColumns cols seen) (acc.map Prod.fst) := by
  intro cols
  induction cols with
  | nil =>
    intro seen acc
    simp [unifiedGo, assignAllColumns, dedupByOriginal]
  | cons c rest ih =>
    intro seen acc
    rw [unifiedGo, assignAllColumns, dedupByOriginal]
    have horig : (mkColDef c (resolveDuplicateName
        (normalize_column_name (colOriginal c)) seen).1).original_name = colOriginal c := rfl
    rw [horig]
    by_cases h : containsKey acc (colOriginal c) = true
    · rw [if_pos h, if_pos (by rw [← containsKey_eq_containsStr]; exact h)]
      exact ih _ acc
    · rw [if_neg h, if_neg (by rw [← containsKey_eq_containsStr]; exact h)]
      rw [ih _ (acc ++ [(colOriginal c,
        mkColDef c (resolveDuplicateName (normalize_column_name (colOriginal c)) seen).1)])]
      rw [List.map_append, List.map_append]
      simp only [List.map_cons, List.map_nil]
      rw [List.append_assoc]
      rfl

theorem dedupByOriginal_props :
    ∀ (l : List ColumnDefinition) (keys : List String),
      ((dedupByOriginal l keys).map (fun cd => cd.original_name)).Nodup ∧
      ∀ cd ∈ dedupByOriginal l keys, containsStr keys cd.original_name = false := by
  intro l
  induction l with
  | nil =>
    intro keys
    exact ⟨List.nodup_nil, by intro cd hcd; simp [dedupByOriginal] at hcd⟩
  | cons cd rest ih =>
    intro keys
    rw [dedupByOriginal]
    by_cases h : containsStr keys cd.original_name = true
    · rw [if_pos h]
      exact ih keys
    · rw [if_neg h]
      obtain ⟨ihn, ihm⟩ := ih (keys ++ [cd.original_name])
      refine ⟨?_, ?_⟩
      · rw [List.map_cons]
        apply List.nodup_cons.mpr
        refine ⟨?_, ihn⟩
        intro hmem
        obtain ⟨x, hx, hxeq⟩ := List.mem_map.mp hmem
        have := ihm x hx
        rw [containsStr_append, hxeq] at this
        have hsingle : containsStr [cd.original_name] cd.original_name = true := by
          rw [containsStr, if_pos (beq_self_eq_true _)]
        rw [hsingle, Bool.or_true] at this
        exact absurd this (by decide)
      · intro x hx
        rcases List.mem_cons.mp hx with rfl | hx2
        · exact bool_not_true h
        · have := ihm x hx2
          rw [containsStr_append] at this
          exact (Bool.or_eq_false_iff.mp this).1

/-- C6: `get_unified_schema` returns one column definition per distinct
`original_name` — it equals the spec-side pipeline that assigns
collision-resolved names to all columns in manifest order, deduplicates by
`original_name` keeping the first occurrence (so the first occurrence's
category, type and normalized name are kept), and sorts by
`(category, normalized_name)`; the returned list has pairwise-distinct
original names (the dedup key is `original_name`, not `normalized_name`)
and is sorted by `(category, normalized_name)`. -/
theorem get_unified_schema_correct (manifests : List (List ColIn)) :
    get_unified_schema manifests = unified_schema_spec manifests
    ∧ ((get_unified_schema manifests).map (fun cd => cd.original_name)).Nodup
    ∧ List.Pairwise (keyLe cdKey) (get_unified_schema manifests) := by
  have hbridge : (unifiedGo manifests.flatten [] []).map Prod.snd
      = dedupByOriginal (assignAllColumns manifests.flatten []) [] := by
    have h := unifiedGo_spec manifests.flatten [] []
    simpa using h
  refine ⟨?_, ?_, ?_⟩
  · rw [get_unified_schema, unified_schema_spec, hbridge]
  · rw [get_unified_schema]
    have hperm := (sortByKeyList_perm cdKey
      ((unifiedGo manifests.flatten [] []).map Prod.snd)).map (fun cd => cd.original_name)
    rw [hperm.nodup_iff, hbridge]
    exact (dedupByOriginal_props _ _).1
  · rw [get_unified_schema]
    exact sortByKeyList_sorted cdKey _

/-! ## Billing-period parsing (shared by the load, export and sync stages) -/

/-- Model of `billing_period.split("-")` on the character list. -/
def splitDashAux : List Char → List Char → List (List Char)
  | [], acc => [acc.reverse]
  | c :: rest, acc =>
    if c == '-' then acc.reverse :: splitDashAux rest []
    else splitDashAux rest (c :: acc)

/-- Decimal digit-string value (the SQL integer literal / `int()` value of
the year and month substrings; well-formed `YYYY-MM` periods only contain
digits). -/
def decToNat (l : List Char) : Nat :=
  l.foldl (fun n c => n * 10 + (c.toNat - 48)) 0

/-- Model of `year, month = billing_period.split("-")` followed by their use as
numbers (SQL integer literals in the DuckDB loader/exporter, `int()` in the
exporter, `strptime` in the BigQuery loader).  Periods that do not split
into exactly two components are out of the source's domain (`split` would
raise); they are mapped to `(0, 0)`. -/
def parsePeriod (p : String) : Nat × Nat :=
  match splitDashAux p.data [] with
  | [y, m] => (decToNat y, decToNat m)
  | _ => (0, 0)

/-! ## DuckDB load engine (duckdb_loader.py, C1/C2/C7) -/

/-- One row of the `aws_billing_data` DuckDB table, as far as the claims
are concerned: the execution-id tag added at load time, the year and month
of `bill_billing_period_start_date` (the fields the partition predicate
`EXTRACT(YEAR ...) = year AND EXTRACT(MONTH ...) = month` reads), the three
export sort columns, and the remaining payload. -/
structure Row where
  execution_id : String
  bill_year : Nat
  bill_month : Nat
  usage_start : String
  account_id : String
  product_code : String
  payload : String
deriving DecidableEq, Repr

/-- A data row as it sits in a staged CSV file, before the
`SELECT '{execution_id}' AS execution_id, *` tagging. -/
structure RawRow where
  bill_year : Nat
  bill_month : Nat
  usage_start : String
  account_id : String
  product_code : String
  payload : String
deriving DecidableEq, Repr

/-- The tagging the loader's INSERT applies to every row of a file. -/
def tagRow (execution_id : String) (r : RawRow) : Row :=
  { execution_id := execution_id
    bill_year := r.bill_year
    bill_month := r.bill_month
    usage_start := r.usage_start
    account_id := r.account_id
    product_code := r.product_code
    payload := r.payload }

/-- One declared CSV file of a manifest: whether it is present in the
staging directory (`csv_path.exists()`), and its parsed rows if so. -/
structure StagedFile where
  present : Bool
  rows : List RawRow
deriving DecidableEq, Repr

/-- The manifest dict as `load_manifest` reads it: `manifest_id`,
`billing_period`, and the declared `csv_files` (with their staged
contents). -/
structure ManifestRec where
  manifest_id : String
  billing_period : String
  csv_files : List StagedFile
deriving Repr

/-- Failure environment for one `load_manifest` call: whether
`ensure_table_schema` succeeds, whether the partition DELETE succeeds, and
whether the INSERT for the `i`-th declared file succeeds (an exception from
any of these is caught by the loader's `except` block). -/
structure LoadEnv where
  ensureOk : Bool
  deleteOk : Bool
  insertOk : Nat → Bool

/-- The observable outcome of `load_manifest`: the table contents, the
manifest state recorded in the state DB, the returned `status`, and the
returned `files_loaded` count. -/
structure LoadResult where
  table : List Row
  final_state : String
  status : String
  files_loaded : Nat

/-- Does a row belong to the billing partition `(y, mo)`?  This is the
predicate `EXTRACT(YEAR FROM bill_billing_period_start_date) = y AND
EXTRACT(MONTH FROM bill_billing_period_start_date) = mo`. -/
def inPeriod (r : Row) (y mo : Nat) : Bool :=
  r.bill_year == y && r.bill_month == mo

/-- The partition DELETE of `load_manifest` (duckdb_loader.py lines
200-205): remove every row of the manifest's billing period. -/
def deletePeriod (t : List Row) (y mo : Nat) : List Row :=
  t.filter (fun r => !(inPeriod r y mo))

/-- The rows of the billing partition of `p` in table `t`. -/
def partitionOf (t : List Row) (p : String) : List Row :=
  t.filter (fun r => inPeriod r (parsePeriod p).1 (parsePeriod p).2)

/-- The file loop of `load_manifest` (duckdb_loader.py lines 218-228): a
missing staged file is skipped with a warning; a present file is loaded by
`load_csv_file`, whose single INSERT appends the file's rows tagged with the
manifest's execution id (an exception leaves the table as it was before
that INSERT and aborts the loop). -/
def loadFiles (env : LoadEnv) (execution_id : String) :
    List StagedFile → Nat → List Row → Nat → Except (List Row) (List Row × Nat)
  | [], _, t, loaded => .ok (t, loaded)
  | f :: rest, i, t, loaded =>
    if f.present then
      if env.insertOk i then
        loadFiles env execution_id rest (i + 1) (t ++ f.rows.map (tagRow execution_id)) (loaded + 1)
      else .error t
    else loadFiles env execution_id rest (i + 1) t loaded

/-- Model of `DuckDBLoader.load_manifest` (duckdb_loader.py lines 172-260): set the
state to loading, ensure the schema (may fail), delete the manifest's
billing-period partition (may fail), load each staged file (each INSERT may
fail), and record `loaded`/success or `failed`/failed; the failure handler
returns `files_loaded: 0` and performs no rollback. -/
def load_manifest (env : LoadEnv) (m : ManifestRec) (t : List Row) : LoadResult :=
  if env.ensureOk = false then
    { table := t, final_state := ("failed"), status := ("failed"), files_loaded := 0 }
  else if env.deleteOk = false then
    { table := t, final_state := ("failed"), status := ("failed"), files_loaded := 0 }
  else
    match loadFiles env m.manifest_id m.csv_files 0
        (deletePeriod t (parsePeriod m.billing_period).1 (parsePeriod m.billing_period).2) 0 with
    | .error t' =>
      { table := t', final_state := ("failed"), status := ("failed"), files_loaded := 0 }
    | .ok (t', n) =>
      { table := t', final_state := ("loaded"), status := ("success"), files_loaded := n }

/-- The all-succeeding environment: no SQL statement raises. -/
def envOK : LoadEnv := { ensureOk := true, deleteOk := true, insertOk := fun _ => true }

/-- A successful `load_manifest` call's effect on the table. -/
def load_ok (m : ManifestRec) (t : List Row) : List Row :=
  (load_manifest envOK m t).table

/-- The rows a manifest's staged (present) files contribute, tagged with the
manifest's execution id. -/
def stagedRows (execution_id : String) (files : List StagedFile) : List Row :=
  ((files.filter (fun f => f.present)).map (fun f => f.rows.map (tagRow execution_id))).flatten

theorem stagedRows_cons_pos {f : StagedFile} {rest : List StagedFile} {eid : String}
    (hp : f.present = true) :
    stagedRows eid (f :: rest) = f.rows.map (tagRow eid) ++ stagedRows eid rest := by
  rw [stagedRows, List.filter_cons, if_pos hp, List.map_cons, List.flatten_cons]
  rfl

theorem stagedRows_cons_neg {f : StagedFile} {rest : List StagedFile} {eid : String}
    (hp : ¬f.present = true) :
    stagedRows eid (f :: rest) = stagedRows eid rest := by
  rw [stagedRows, List.filter_cons, if_neg hp]
  rfl

theorem loadFiles_all_ok (env : LoadEnv) (eid : String) (hins : ∀ i, env.insertOk i = true) :
    ∀ (files : List StagedFile) (i : Nat) (t : List Row) (n : Nat),
      loadFiles env eid files i t n
        = .ok (t ++ stagedRows eid files, n + files.countP (fun f => f.present)) := by
  intro files
  induction files with
  | nil =>
    intro i t n
    simp [loadFiles, stagedRows]
  | cons f rest ih =>
    intro i t n
    rw [loadFiles]
    by_cases hp : f.present = true
    · rw [if_pos hp, if_pos (hins i), ih (i + 1)]
      have hc : List.countP (fun f => f.present) (f :: rest)
          = List.countP (fun f => f.present) rest + 1 := by
        rw [List.countP_cons, if_pos hp]
      rw [stagedRows_cons_pos hp, ← List.append_assoc, hc]
      have hn : n + 1 + List.countP (fun f => f.present) rest
          = n + (List.countP (fun f => f.present) rest + 1) := by omega
      rw [hn]
    · rw [if_neg hp, ih (i + 1)]
      have hc : List.countP (fun f => f.present) (f :: rest)
          = List.countP (fun f => f.present) rest := by
        rw [List.countP_cons, if_neg hp]
        omega
      rw [stagedRows_cons_neg hp, hc]

theorem loadFiles_error_shape (env : LoadEnv) (eid : String) :
    ∀ (files : List StagedFile) (i : Nat) (t0 : List Row) (n : Nat) (t' : List Row),
      loadFiles env eid files i t0 n = .error t' →
      ∃ s, t' = t0 ++ s ∧ ∀ r ∈ s, r.execution_id = eid := by
  intro files
  induction files with
  | nil =>
    intro i t0 n t' h
    simp [loadFiles] at h
  | cons f rest ih =>
    intro i t0 n t' h
    rw [loadFiles] at h
    by_cases hp : f.present = true
    · rw [if_pos hp] at h
      by_cases hins : env.insertOk i = true
      · rw [if_pos hins] at h
        obtain ⟨s, hs, hmem⟩ := ih (i + 1) _ _ _ h
        refine ⟨f.rows.map (tagRow eid) ++ s, by rw [hs, List.append_assoc], ?_⟩
        intro r hr
        rcases List.mem_append.mp hr with hr1 | hr2
        · obtain ⟨rr, _, rfl⟩ := List.mem_map.mp hr1
          rfl
        · exact hmem r hr2
      · rw [if_neg hins] at h
        have ht : t0 = t' := by
          injection h
        refine ⟨[], by rw [← ht, List.append_nil], ?_⟩
        intro r hr
        simp at hr
    · rw [if_neg hp] at h
      exact ih (i + 1) _ _ _ h

theorem stagedRows_execution_id (eid : String) (files : List StagedFile) :
    ∀ r ∈ stagedRows eid files, r.execution_id = eid := by
  intro r hr
  rw [stagedRows] at hr
  obtain ⟨l, hl, hrl⟩ := List.mem_flatten.mp hr
  obtain ⟨f, _, rfl⟩ := List.mem_map.mp hl
  obtain ⟨rr, _, rfl⟩ := List.mem_map.mp hrl
  rfl

theorem load_ok_eq (m : ManifestRec) (t : List Row) :
    load_ok m t
      = deletePeriod t (parsePeriod m.billing_period).1 (parsePeriod m.billing_period).2
        ++ stagedRows m.manifest_id m.csv_files := by
  rw [load_ok, load_manifest, if_neg (by decide : ¬(envOK.ensureOk = false)),
    if_neg (by decide : ¬(envOK.deleteOk = false)),
    loadFiles_all_ok envOK m.manifest_id (fun i => rfl)]

theorem partition_delete_empty (t : List Row) (y mo : Nat) :
    (deletePeriod t y mo).filter (fun r => inPeriod r y mo) = [] := by
  rw [deletePeriod, List.filter_filter]
  simp

/-- C1: loading the same manifest twice in succession leaves the rows of the
destination table whose billing period equals the manifest's billing period
identical to the rows left by a single load — `load_manifest` deletes all
rows of the manifest's billing period before inserting the manifest's file
data, so the partition after the second load equals the partition after the
first. -/
theorem load_manifest_idempotent (m : ManifestRec) (t : List Row) :
    partitionOf (load_ok m (load_ok m t)) m.billing_period
      = partitionOf (load_ok m t) m.billing_period := by
  rw [load_ok_eq m (load_ok m t), load_ok_eq m t]
  simp only [partitionOf, List.filter_append]
  rw [partition_delete_empty, partition_delete_empty]

/-- C2: for manifests `m1`, `m2` with the same billing period and different
execution ids, after `load(m1); load(m2)` the partition for that billing
period contains only rows tagged with `m2`'s execution id and zero rows
tagged with `m1`'s execution id — the partition delete runs before every
insert, so at most one execution id's data remains in the loaded partition. -/
theorem load_manifest_replaces (t : List Row) (m1 m2 : ManifestRec)
    (hperiod : m1.billing_period = m2.billing_period)
    (hid : m1.manifest_id ≠ m2.manifest_id) :
    (∀ r ∈ partitionOf (load_ok m2 (load_ok m1 t)) m2.billing_period,
        r.execution_id = m2.manifest_id)
    ∧ (∀ r ∈ partitionOf (load_ok m2 (load_ok m1 t)) m2.billing_period,
        r.execution_id ≠ m1.manifest_id) := by
  have hall : ∀ r ∈ partitionOf (load_ok m2 (load_ok m1 t)) m2.billing_period,
      r.execution_id = m2.manifest_id := by
    intro r hr
    rw [load_ok_eq m2 (load_ok m1 t)] at hr
    rw [partitionOf, List.filter_append] at hr
    rcases List.mem_append.mp hr with hr1 | hr2
    · rw [partition_delete_empty] at hr1
      simp at hr1
    · exact stagedRows_execution_id _ _ r (List.mem_filter.mp hr2).1
  refine ⟨hall, ?_⟩
  intro r hr he
  exact hid (he.symm.trans (hall r hr))

/-- A staged data row dated in billing period 2024-01. -/
def sampleRaw : RawRow :=
  { bill_year := 2024, bill_month := 1, usage_start := ("2024-01-02T00:00:00Z")
    account_id := ("111122223333"), product_code := ("AmazonEC2"), payload := ("r1") }

/-- A 2024-01 manifest with execution id exec-A and one staged file. -/
def manifestA : ManifestRec :=
  { manifest_id := ("exec-A"), billing_period := ("2024-01")
    csv_files := [{ present := true, rows := [sampleRaw] }] }

/-- A replacement 2024-01 manifest with execution id exec-B. -/
def manifestB : ManifestRec :=
  { manifest_id := ("exec-B"), billing_period := ("2024-01")
    csv_files := [{ present := true, rows := [sampleRaw] }] }

/-- Witness for C2: the replace property evaluated at concrete manifests
exec-A / exec-B for period 2024-01 on the empty table. -/
theorem load_manifest_replaces_witness :
    (∀ r ∈ partitionOf (load_ok manifestB (load_ok manifestA [])) manifestB.billing_period,
        r.execution_id = manifestB.manifest_id)
    ∧ (∀ r ∈ partitionOf (load_ok manifestB (load_ok manifestA [])) manifestB.billing_period,
        r.execution_id ≠ manifestA.manifest_id) :=
  load_manifest_replaces [] manifestA manifestB (by decide) (by decide)

/-- C7: any exception during schema-ensure, partition-delete or file
insertion makes `load_manifest` return a failed status and record the failed
state; when the failure happens during insertion the deleted partition rows
are not restored (no rollback — the table is the deleted table plus the
rows inserted so far, all tagged with the manifest's execution id); a
declared file that is absent from staging is only skipped — with no
exception the load still returns success, counting only the files found. -/
theorem load_manifest_error_handling (env : LoadEnv) (m : ManifestRec) (t : List Row) :
    ((env.ensureOk = false ∨ env.deleteOk = false ∨
        (∃ t', loadFiles env m.manifest_id m.csv_files 0
            (deletePeriod t (parsePeriod m.billing_period).1 (parsePeriod m.billing_period).2) 0
          = .error t')) →
      (load_manifest env m t).status = ("failed")
        ∧ (load_manifest env m t).final_state = ("failed"))
    ∧ (∀ t', env.ensureOk = true → env.deleteOk = true →
        loadFiles env m.manifest_id m.csv_files 0
            (deletePeriod t (parsePeriod m.billing_period).1 (parsePeriod m.billing_period).2) 0
          = .error t' →
        (load_manifest env m t).table = t'
          ∧ ∃ s, t' = deletePeriod t (parsePeriod m.billing_period).1
                (parsePeriod m.billing_period).2 ++ s
              ∧ ∀ r ∈ s, r.execution_id = m.manifest_id)
    ∧ (env.ensureOk = true → env.deleteOk = true → (∀ i, env.insertOk i = true) →
        (load_manifest env m t).status = ("success")
          ∧ (load_manifest env m t).final_state = ("loaded")
          ∧ (load_manifest env m t).files_loaded
              = m.csv_files.countP (fun f => f.present)) := by
  refine ⟨?_, ?_, ?_⟩
  · intro hdisj
    by_cases he : env.ensureOk = false
    · rw [load_manifest, if_pos he]
      exact ⟨rfl, rfl⟩
    · by_cases hd : env.deleteOk = false
      · rw [load_manifest, if_neg he, if_pos hd]
        exact ⟨rfl, rfl⟩
      · rcases hdisj with h | h | ⟨t', ht'⟩
        · exact absurd h he
        · exact absurd h hd
        · rw [load_manifest, if_neg he, if_neg hd, ht']
          exact ⟨rfl, rfl⟩
  · intro t' he hd herr
    have he' : ¬(env.ensureOk = false) := by rw [he]; decide
    have hd' : ¬(env.deleteOk = false) := by rw [hd]; decide
    rw [load_manifest, if_neg he', if_neg hd', herr]
    exact ⟨rfl, loadFiles_error_shape env m.manifest_id m.csv_files 0 _ 0 t' herr⟩
  · intro he hd hins
    have he' : ¬(env.ensureOk = false) := by rw [he]; decide
    have hd' : ¬(env.deleteOk = false) := by rw [hd]; decide
    rw [load_manifest, if_neg he', if_neg hd',
      loadFiles_all_ok env m.manifest_id hins]
    exact ⟨rfl, rfl, Nat.zero_add _⟩

/-- An environment in which every INSERT raises. -/
def envInsFail : LoadEnv := { ensureOk := true, deleteOk := true, insertOk := fun _ => false }

/-- A manifest declaring one staged file and one file missing from the
staging directory. -/
def manifestMixed : ManifestRec :=
  { manifest_id := ("exec-C"), billing_period := ("2024-01")
    csv_files := [{ present := true, rows := [sampleRaw] }, { present := false, rows := [] }] }

/-- Witness for C7: at a concrete table and manifest, a failing INSERT
yields the failed status and failed recorded state (with the partition left
deleted), and with no exception a missing staged file still yields success
with one file loaded. -/
theorem load_manifest_error_handling_witness :
    ((load_manifest envInsFail manifestMixed [tagRow ("exec-old") sampleRaw]).status = ("failed")
      ∧ (load_manifest envInsFail manifestMixed [tagRow ("exec-old") sampleRaw]).final_state
          = ("failed"))
    ∧ ((load_manifest envOK manifestMixed [tagRow ("exec-old") sampleRaw]).status = ("success")
      ∧ (load_manifest envOK manifestMixed [tagRow ("exec-old") sampleRaw]).final_state
          = ("loaded")
      ∧ (load_manifest envOK manifestMixed [tagRow ("exec-old") sampleRaw]).files_loaded = 1) := by
  have h1 := load_manifest_error_handling envInsFail manifestMixed [tagRow ("exec-old") sampleRaw]
  have h2 := load_manifest_error_handling envOK manifestMixed [tagRow ("exec-old") sampleRaw]
  refine ⟨h1.1 (Or.inr (Or.inr ⟨[], rfl⟩)), ?_⟩
  have h3 := h2.2.2 rfl rfl (fun i => rfl)
  exact ⟨h3.1, h3.2.1, h3.2.2.trans (by decide)⟩

/-! ## Discovery filtering (manifest_discovery.py / state_checker.py, C3) -/

/-- A discovered CUR manifest as the filter in `discover_manifests` reads
it: only `billing_period` and `id` (the vendor execution/assembly id) take
part in the already-loaded check; the remaining metadata fields of the
Python dataclass (version, period boundaries, s3 location, files, columns,
compression) do not influence the filter and are collected in `meta`. -/
structure CURManifest where
  id : String
  billing_period : String
  meta : String
deriving DecidableEq, Repr

/-- Model of `StateChecker.check_execution_id_loaded` (state_checker.py lines
125-132): the loaded-state map's entry for the billing period equals the
execution id.  The map (`billing_period -> execution_id`) is the result of
`get_loaded_execution_ids`, modelled as an association list. -/
def check_execution_id_loaded (loaded : List (String × String))
    (billing_period execution_id : String) : Bool :=
  lookupAssoc loaded billing_period == some execution_id

/-- The filter loop of `ManifestDiscoveryService.discover_manifests`
(manifest_discovery.py lines 50-61): skip a manifest whose execution id is
exactly the one already loaded for its billing period, keep everything
else. -/
def filter_discovered (loaded : List (String × String)) :
    List CURManifest → List CURManifest
  | [] => []
  | m :: rest =>
    if lookupAssoc loaded m.billing_period == some m.id
    then filter_discovered loaded rest
    else m :: filter_discovered loaded rest

/-- The loaded-state map of the claim: `{"2024-01": "exec-A"}`. -/
def exampleLoaded : List (String × String) := [(("2024-01"), ("exec-A"))]

/-- A discovered 2024-01 manifest with id exec-A (already loaded). -/
def discoveredA : CURManifest :=
  { id := ("exec-A"), billing_period := ("2024-01"), meta := ("v1") }

/-- A discovered 2024-01 manifest with id exec-B (not yet loaded). -/
def discoveredB : CURManifest :=
  { id := ("exec-B"), billing_period := ("2024-01"), meta := ("v1") }

/-- C3: discovery excludes a manifest exactly when the loaded-state map's
entry for the manifest's billing period equals the manifest's execution id
— a manifest for a new period, or for a known period with a different
execution id, is always kept.  In particular, with loaded state
`{"2024-01": "exec-A"}`, the 2024-01 manifest with id exec-A is excluded
and the one with id exec-B is included. -/
theorem discover_manifests_filtering (loaded : List (String × String))
    (manifests : List CURManifest) :
    (∀ m : CURManifest,
      m ∈ filter_discovered loaded manifests
        ↔ (m ∈ manifests ∧ check_execution_id_loaded loaded m.billing_period m.id = false))
    ∧ filter_discovered exampleLoaded [discoveredA, discoveredB] = [discoveredB] := by
  constructor
  · intro m
    induction manifests with
    | nil => simp [filter_discovered]
    | cons x rest ih =>
      rw [filter_discovered]
      by_cases h : (lookupAssoc loaded x.billing_period == some x.id) = true
      · rw [if_pos h]
        rw [ih]
        constructor
        · intro ⟨hm, hc⟩
          exact ⟨List.mem_cons_of_mem _ hm, hc⟩
        · intro ⟨hm, hc⟩
          rcases List.mem_cons.mp hm with rfl | hm2
          · rw [check_execution_id_loaded, h] at hc
            exact absurd hc (by decide)
          · exact ⟨hm2, hc⟩
      · rw [if_neg h]
        constructor
        · intro hm
          rcases List.mem_cons.mp hm with rfl | hm2
          · exact ⟨List.mem_cons_self _ _, bool_not_true h⟩
          · obtain ⟨ha, hb⟩ := ih.mp hm2
            exact ⟨List.mem_cons_of_mem _ ha, hb⟩
        · intro ⟨hm, hc⟩
          rcases List.mem_cons.mp hm with rfl | hm2
          · exact List.mem_cons_self _ _
          · exact List.mem_cons_of_mem _ (ih.mpr ⟨hm2, hc⟩)
  · decide

/-! ## Parquet export (parquet_exporter.py, C8) -/

/-- Sort key of the export query's ORDER BY:
`line_item_usage_start_date, line_item_usage_account_id,
line_item_product_code`. -/
def exportKey (r : Row) : List (List Char) :=
  [r.usage_start.data, r.account_id.data, r.product_code.data]

/-- The `COPY (SELECT * ... WHERE period predicate ORDER BY ...) TO file`
of `_export_to_parquet` (parquet_exporter.py lines 198-222): the partition's
rows in the ORDER BY order. -/
def export_query (t : List Row) (billing_period : String) : List Row :=
  sortByKeyList exportKey (partitionOf t billing_period)

/-- Model of `ParquetExporter._export_single_period` (parquet_exporter.py lines
154-175), as observed by `export_billing_periods`: returns "skipped" when
the destination file exists and overwrite was not requested; otherwise
raises (caught into "failed") when the partition has no rows
(`_has_data_for_period`, `COUNT(*) > 0`); otherwise writes the sorted
partition and returns "exported".  The second component is the file written
(`none` when nothing is written). -/
def export_single_period (t : List Row) (billing_period : String)
    (fileOnDisk overwrite : Bool) : String × Option (List Row) :=
  if fileOnDisk && !overwrite then (("skipped"), none)
  else if (partitionOf t billing_period).length = 0 then (("failed"), none)
  else (("exported"), some (export_query t billing_period))

/-- C8: the export of a billing period returns "skipped" exactly when the
destination file already exists and overwrite is not requested (this is
checked first); returns "failed" exactly when, not skipping, the source
table has zero rows for the partition; and otherwise returns "exported"
after writing the partition's rows ordered by usage start date, then
account id, then product code (a permutation of the partition, sorted by
that key). -/
theorem export_single_period_spec (t : List Row) (billing_period : String)
    (fileOnDisk overwrite : Bool) :
    ((export_single_period t billing_period fileOnDisk overwrite).1 = ("skipped")
      ↔ (fileOnDisk = true ∧ overwrite = false))
    ∧ ((export_single_period t billing_period fileOnDisk overwrite).1 = ("failed")
      ↔ (¬(fileOnDisk = true ∧ overwrite = false)
          ∧ partitionOf t billing_period = []))
    ∧ ((export_single_period t billing_period fileOnDisk overwrite).1 = ("exported")
      ↔ (¬(fileOnDisk = true ∧ overwrite = false)
          ∧ partitionOf t billing_period ≠ []))
    ∧ ((export_single_period t billing_period fileOnDisk overwrite).1 = ("exported") →
        (export_single_period t billing_period fileOnDisk overwrite).2
            = some (export_query t billing_period)
          ∧ List.Perm (export_query t billing_period) (partitionOf t billing_period)
          ∧ List.Pairwise (keyLe exportKey) (export_query t billing_period)) := by
  have hcond : (fileOnDisk && !overwrite) = true ↔ (fileOnDisk = true ∧ overwrite = false) := by
    constructor
    · intro h
      obtain ⟨h1, h2⟩ := Bool.and_eq_true_iff.mp h
      exact ⟨h1, by cases overwrite with | false => rfl | true => simp at h2⟩
    · intro ⟨h1, h2⟩
      rw [h1, h2]
      rfl
  rw [export_single_period]
  by_cases hc : (fileOnDisk && !overwrite) = true
  · rw [if_pos hc]
    refine ⟨?_, ?_, ?_, ?_⟩
    · simp [hcond.mp hc]
    · constructor
      · intro h
        exact absurd h (by decide)
      · intro ⟨hn, _⟩
        exact absurd (hcond.mp hc) hn
    · constructor
      · intro h
        exact absurd h (by decide)
      · intro ⟨hn, _⟩
        exact absurd (hcond.mp hc) hn
    · intro h
      exact absurd h (by decide)
  · rw [if_neg hc]
    have hnc : ¬(fileOnDisk = true ∧ overwrite = false) := fun ha => hc (hcond.mpr ha)
    by_cases hz : (partitionOf t billing_period).length = 0
    · rw [if_pos hz]
      have hnil : partitionOf t billing_period = [] := List.length_eq_zero.mp hz
      refine ⟨?_, ?_, ?_, ?_⟩
      · constructor
        · intro h
          exact absurd h (by decide)
        · intro ⟨h1, h2⟩
          exact absurd (hcond.mpr ⟨h1, h2⟩) hc
      · simp [hnc, hnil]
      · constructor
        · intro h
          exact absurd h (by decide)
        · intro ⟨_, hne⟩
          exact absurd hnil hne
      · intro h
        exact absurd h (by decide)
    · rw [if_neg hz]
      have hne : partitionOf t billing_period ≠ [] := by
        intro h
        exact hz (by rw [h]; rfl)
      refine ⟨?_, ?_, ?_, ?_⟩
      · constructor
        · intro h
          exact absurd h (by simp)
        · intro ⟨h1, h2⟩
          exact absurd (hcond.mpr ⟨h1, h2⟩) hc
      · constructor
        · intro h
          exact absurd h (by simp)
        · intro ⟨_, hnil⟩
          exact absurd hnil hne
      · simp [hnc, hne]
      · intro _
        exact ⟨rfl, sortByKeyList_perm exportKey _, sortByKeyList_sorted exportKey _⟩

/-- Witness for C8: at a concrete one-row table with no destination file,
the export returns "exported" and writes the sorted partition. -/
theorem export_single_period_spec_witness :
    (export_single_period [tagRow ("exec-A") sampleRaw] ("2024-01") false false).1
        = ("exported")
    ∧ (export_single_period [tagRow ("exec-A") sampleRaw] ("2024-01") false false).2
        = some (export_query [tagRow ("exec-A") sampleRaw] ("2024-01")) := by
  have h := export_single_period_spec [tagRow ("exec-A") sampleRaw] ("2024-01") false false
  have hst : (export_single_period [tagRow ("exec-A") sampleRaw] ("2024-01") false false).1
      = ("exported") := by decide
  exact ⟨hst, (h.2.2.2 hst).1⟩

/-! ## BigQuery sync (bigquery_loader.py, C9) -/

/-- One row of the remote BigQuery table, as far as the sync's DELETE is
concerned: the components of the TIMESTAMP column
`bill_billing_period_start_date` (year, month, day, and the remaining
time-of-day as seconds), the execution-id tag, and the payload. -/
structure BQRow where
  start_year : Nat
  start_month : Nat
  start_day : Nat
  start_seconds : Nat
  execution_id : String
  payload : String
deriving DecidableEq, Repr

/-- The billing period a remote row belongs to: the calendar month of its
`bill_billing_period_start_date`. -/
def rowBillingPeriod (r : BQRow) : Nat × Nat := (r.start_year, r.start_month)

/-- The predicate of the sync's DELETE
(`bill_billing_period_start_date = TIMESTAMP('{billing_period}-01T00:00:00')`,
bigquery_loader.py lines 235-238): the row's timestamp equals midnight of
the first day of the synced period — exact timestamp equality, not
year/month extraction. -/
def isPeriodStartTs (r : BQRow) (y mo : Nat) : Bool :=
  r.start_year == y && r.start_month == mo && r.start_day == 1 && r.start_seconds == 0

/-- The DELETE job of `_load_parquet_to_bigquery`. -/
def bq_delete_period (t : List BQRow) (billing_period : String) : List BQRow :=
  t.filter (fun r =>
    !(isPeriodStartTs r (parsePeriod billing_period).1 (parsePeriod billing_period).2))

/-- Model of `BigQueryLoader._load_parquet_to_bigquery` (bigquery_loader.py lines
221-279): delete the rows whose `bill_billing_period_start_date` equals the
period's first-of-month midnight timestamp, then append the Parquet file's
rows (`WRITE_APPEND`). -/
def load_parquet_to_bigquery (t : List BQRow) (billing_period : String)
    (fileRows : List BQRow) : List BQRow :=
  bq_delete_period t billing_period ++ fileRows

/-- A remote row for period 2024-01 whose timestamp is mid-month
(2024-01-15T00:00:00) rather than the period's first instant. -/
def bqMidMonth : BQRow :=
  { start_year := 2024, start_month := 1, start_day := 15, start_seconds := 0
    execution_id := ("exec-old"), payload := ("stale") }

/-- A row of the exported file being synced for 2024-01. -/
def bqFileRow : BQRow :=
  { start_year := 2024, start_month := 1, start_day := 1, start_seconds := 0
    execution_id := ("exec-B"), payload := ("fresh") }

/-- C9 counterexample: the sync's DELETE uses exact timestamp equality with
the period's first-of-month midnight, not a year/month predicate, so a
remote row whose billing period is the synced period but whose timestamp is
2024-01-15 survives `load(parquet, "2024-01")` — contradicting "deletes
every existing remote row whose billing period equals the synced period
before appending". -/
theorem load_parquet_to_bigquery_counterexample :
    rowBillingPeriod bqMidMonth = parsePeriod ("2024-01")
    ∧ bqMidMonth ∈ load_parquet_to_bigquery [bqMidMonth] ("2024-01") [bqFileRow]
    ∧ bqMidMonth.execution_id ≠ bqFileRow.execution_id
    ∧ bqMidMonth ∉ [bqFileRow] := by
  refine ⟨by decide, ?_, by decide, by decide⟩
  have h : load_parquet_to_bigquery [bqMidMonth] ("2024-01") [bqFileRow]
      = [bqMidMonth, bqFileRow] := by decide
  rw [h]
  exact List.mem_cons_self _ _

/-- C9 (amended): the sync deletes exactly the remote rows whose
`bill_billing_period_start_date` equals the synced period's first-of-month
midnight timestamp, and only then appends the exported file's rows: every
row's multiplicity in the result is its multiplicity in the file plus — if
its timestamp is not that exact period-start instant — its prior
multiplicity.  Rows carrying the canonical period-start timestamp are
therefore replaced, never duplicated, while rows dated elsewhere in the
same month are not deleted. -/
theorem load_parquet_to_bigquery_replaces (t : List BQRow) (billing_period : String)
    (fileRows : List BQRow) (r : BQRow) :
    (load_parquet_to_bigquery t billing_period fileRows).count r
      = (if isPeriodStartTs r (parsePeriod billing_period).1
            (parsePeriod billing_period).2 = true
         then 0 else t.count r)
        + fileRows.count r := by
  rw [load_parquet_to_bigquery, List.count_append, bq_delete_period]
  congr 1
  by_cases h : isPeriodStartTs r (parsePeriod billing_period).1
      (parsePeriod billing_period).2 = true
  · rw [if_pos h]
    apply List.count_eq_zero.mpr
    intro hmem
    have := (List.mem_filter.mp hmem).2
    rw [h] at this
    exact absurd this (by decide)
  · rw [if_neg h]
    apply List.count_filter
    rw [bool_not_true h]
    rfl
